import Mathlib

/-!
Verification of the SparseDNN GraphChallenge engine (converter `main` in
src/unnamed/part_000 and `snig::BFOneGpu` in src/.others/bf_one_gpu.hpp).

The C++ code is shallowly embedded: the tiling computation and the
`_non_empty_rows` scan become Lean functions; the pinned-weight layout
constants become arithmetic definitions; the `_infer_BF` loop becomes an
explicit issue trace of operations together with a stream-based
happens-before relation, plus small state machines for the contents of the
ping-pong activation buffers `Y[0]/Y[1]` and the row-length arrays
`rlenY[0]/rlenY[1]`.
-/

namespace snig

/-! ### Tiling: COL_BLK and N_SLAB -/

/-- The divisor-search loop shared by the converter (part_000:68-71) and the
engine constructor (bf_one_gpu.hpp:108-111):
`while((n % max_divisor != 0) || (max_num_per_block < n / max_divisor)) ++max_divisor;`
starting at `max_divisor = 2`.  The C++ loop is unbounded; it is embedded
with explicit fuel, `none` standing for the loop running past the fuel.
Returns the first `m ≥ start` within fuel steps with `n % m = 0` and
`n / m ≤ budget`. -/
def find_max_divisor (n budget : Nat) : Nat → Nat → Option Nat
  | _, 0 => none
  | m, fuel + 1 =>
    if n % m = 0 ∧ n / m ≤ budget then some m
    else find_max_divisor n budget (m + 1) fuel

/-- The COL_BLK / N_SLAB computation (part_000:57-75 and
bf_one_gpu.hpp:101-119): with `budget = sharedMemPerBlock / sizeof(T)`,
if `n ≤ budget` then `COL_BLK = n`; otherwise `COL_BLK = n / max_divisor`
for the first fitting divisor `max_divisor ≥ 2`; afterwards
`N_SLAB = n / COL_BLK`.  Fuel `n - 1` lets the loop try the divisors
`2, 3, ..., n`; `none` models the loop never exiting. -/
def tiling (n budget : Nat) : Option (Nat × Nat) :=
  if n ≤ budget then some (n, n / n)
  else
    match find_max_divisor n budget 2 (n - 1) with
    | some m => some (n / m, n / (n / m))
    | none => none

/-- sizeof(int) on the targeted platforms. -/
def sizeofInt : Nat := 4

/-- sizeof(float). -/
def sizeofFloat : Nat := 4

/-- sizeof(double). -/
def sizeofDouble : Nat := 8

/-- Tiling as computed by the converter (part_000:60-75): the budget is
`props.sharedMemPerBlock / sizeof(float)`, with `float` hard-coded. -/
def converterTiling (n shmem : Nat) : Option (Nat × Nat) :=
  tiling n (shmem / sizeofFloat)

/-- Tiling as computed by the inference engine (bf_one_gpu.hpp:101-119):
the budget is `props.sharedMemPerBlock / sizeof(T)` for the engine's
numeric type `T`. -/
def engineTiling (n shmem sizeofT : Nat) : Option (Nat × Nat) :=
  tiling n (shmem / sizeofT)

/-! ### Pinned-weight layout constants (bf_one_gpu.hpp:127-152) -/

/-- `_p_w_index_len = num_neurons_per_layer * _N_SLAB + _max_nnz_per_layer + 1`
(bf_one_gpu.hpp:129). -/
def p_w_index_len (n nslab maxNnz : Nat) : Nat := n * nslab + maxNnz + 1

/-- `_pad`: starts at 0 and is incremented once when
`_p_w_index_len % sizeof(T) != 0` (bf_one_gpu.hpp:132-134). -/
def pad (sizeofT n nslab maxNnz : Nat) : Nat :=
  if p_w_index_len n nslab maxNnz % sizeofT ≠ 0 then 1 else 0

/-- `_pp_w_index_len = _p_w_index_len + _pad` (bf_one_gpu.hpp:136). -/
def pp_w_index_len (sizeofT n nslab maxNnz : Nat) : Nat :=
  p_w_index_len n nslab maxNnz + pad sizeofT n nslab maxNnz

/-- `_pp_wlen = _pp_w_index_len + (sizeof(T) / sizeof(float)) * _max_nnz_per_layer`
(bf_one_gpu.hpp:139): the per-layer stride of the pinned region counted in
`int` elements. -/
def pp_wlen (sizeofT n nslab maxNnz : Nat) : Nat :=
  pp_w_index_len sizeofT n nslab maxNnz + (sizeofT / sizeofFloat) * maxNnz

/-- `_pp_wsize = sizeof(int) * _pp_w_index_len + sizeof(T) * _max_nnz_per_layer`
(bf_one_gpu.hpp:141): the per-layer block size in bytes. -/
def pp_wsize (sizeofT n nslab maxNnz : Nat) : Nat :=
  sizeofInt * pp_w_index_len sizeofT n nslab maxNnz + sizeofT * maxNnz

/-- Byte offset of the `int*` address `_h_pinned_weight + k * _pp_wlen`
used by the prefetch (bf_one_gpu.hpp:290) relative to the start of the
pinned region. -/
def pinnedLayerByteOffset (sizeofT n nslab maxNnz k : Nat) : Nat :=
  sizeofInt * (k * pp_wlen sizeofT n nslab maxNnz)

/-! ### The host row scan `_non_empty_rows` (bf_one_gpu.hpp:337-351) -/

/-- The scan loop after `i` iterations: `for(i...) if(rlenY[i] > 0) rowsY[nnz++] = i;`.
The returned list is the prefix `rowsY[0..nnz)` written by the loop, and
`nnz` is its length. -/
def nonEmptyRowsAux (rlen : Nat → Int) : Nat → List Nat
  | 0 => []
  | i + 1 => nonEmptyRowsAux rlen i ++ (if 0 < rlen i then [i] else [])

/-- `_non_empty_rows(num_inputs, rlenY, rowsY, nnz)`: the full scan over
`0 ≤ i < num_inputs`. -/
def nonEmptyRows (numInputs : Nat) (rlen : Nat → Int) : List Nat :=
  nonEmptyRowsAux rlen numInputs

/-! ### The `_infer_BF` issue trace (bf_one_gpu.hpp:286-331)

One `Op` per host-issued operation, tagged with the loop iteration
(`cur_layer`) or the layer it concerns, so every operation of a run occurs
at most once in the trace. -/

/-- Host-issued operations of `_infer_BF`. `copyW l` is the
`cudaMemcpyAsync` of layer `l`'s packed weights on `stream[0]`
(issued in iteration `l - 1`); `kernel cur` is the `bf_inference` launch
of iteration `cur` on `stream[1]`; `sync s cur` is
`cudaStreamSynchronize(stream[s])` in iteration `cur`; `scan cur` is the
host call `_non_empty_rows`; `memsetY cur` the `cudaMemset` of
`Y[cur % 2]`; `identify` the final classification kernel on the default
stream; `devSync` the final `cudaDeviceSynchronize`. -/
inductive Op : Type where
  | copyW (layer : Nat)
  | kernel (layer : Nat)
  | sync (s : Nat) (iter : Nat)
  | scan (iter : Nat)
  | memsetY (iter : Nat)
  | identify
  | devSync
deriving DecidableEq

/-- The operations issued by one iteration of the `_infer_BF` loop body
(bf_one_gpu.hpp:286-328), in program order: the guarded weight prefetch
(`if(cur_layer != _num_layers - 1)`), the kernel launch, the compute-stream
synchronize, the host row scan, the memset of the consumed activation
buffer, and the transfer-stream synchronize. -/
def iterOps (numLayers cur : Nat) : List Op :=
  (if cur ≠ numLayers - 1 then [Op.copyW (cur + 1)] else []) ++
    [Op.kernel cur, Op.sync 1 cur, Op.scan cur, Op.memsetY cur, Op.sync 0 cur]

/-- The complete issue trace of `_infer_BF`: the loop over
`cur_layer = 0, ..., num_layers - 1`, then `identify` and
`cudaDeviceSynchronize` (bf_one_gpu.hpp:330-331). -/
def inferTrace (numLayers : Nat) : List Op :=
  (List.range numLayers).flatMap (iterOps numLayers) ++ [Op.identify, Op.devSync]

/-- `d_W` index written by the prefetch issued in iteration `cur`:
`d_W[(cur_layer + 1) % 2]` (bf_one_gpu.hpp:289). -/
def prefetchDstBuf (cur : Nat) : Nat := (cur + 1) % 2

/-- `d_W` index read by iteration `cur`'s kernel: `d_W[cur_layer % 2]`
(bf_one_gpu.hpp:305-307). -/
def kernelWBuf (cur : Nat) : Nat := cur % 2

/-- `Y` index read by iteration `cur`'s kernel: `Y[cur_layer % 2]`
(bf_one_gpu.hpp:298). -/
def kernelYinBuf (cur : Nat) : Nat := cur % 2

/-- `Y` index written by iteration `cur`'s kernel: `Y[(cur_layer + 1) % 2]`
(bf_one_gpu.hpp:309). -/
def kernelYoutBuf (cur : Nat) : Nat := (cur + 1) % 2

/-- `rlenY` index written by iteration `cur`'s kernel:
`rlenY[(cur_layer + 1) % 2]` (bf_one_gpu.hpp:310). -/
def kernelRlenOutBuf (cur : Nat) : Nat := (cur + 1) % 2

/-- `rlenY` index scanned by `_non_empty_rows` in iteration `cur`:
`rlenY[(cur_layer + 1) % 2]` (bf_one_gpu.hpp:317). -/
def scanRlenBuf (cur : Nat) : Nat := (cur + 1) % 2

/-- `Y` index zeroed at the end of iteration `cur`: `Y[cur_layer % 2]`
(bf_one_gpu.hpp:322-326). -/
def memsetYBuf (cur : Nat) : Nat := cur % 2

/-- `Y` index passed to the final `identify` kernel: `Y[0]`
(bf_one_gpu.hpp:330). -/
def identifyYBuf : Nat := 0

/-- `a` is issued strictly before `b` in the trace `tr`: some occurrence of
`a` precedes some occurrence of `b`. -/
def IssuedBefore (tr : List Op) (a b : Op) : Prop :=
  ∃ l1 l2 l3, tr = l1 ++ a :: (l2 ++ b :: l3)

/-- The CUDA stream an operation executes on: `some 0` for `stream[0]`
(transfer), `some 1` for `stream[1]` (compute), `some 2` for the default
stream, `none` for operations executed by the blocking host thread itself
(stream synchronizations, the host scan, the device synchronize). -/
def opStream : Op → Option Nat
  | .copyW _ => some 0
  | .kernel _ => some 1
  | .memsetY _ => some 2
  | .identify => some 2
  | .sync _ _ => none
  | .scan _ => none
  | .devSync => none

/-- Whether the operation runs (and completes) on the host thread at its
issue point. -/
def isHostOp (o : Op) : Bool := (opStream o).isNone

/-- Happens-before over the execution of the issued operations, generated
by the CUDA ordering rules the code relies on: operations on one stream
execute in issue order; a blocking host step completes before anything
issued later starts; `cudaStreamSynchronize(stream[s])` completes only
after every operation previously issued on `stream[s]`. -/
inductive HB (tr : List Op) : Op → Op → Prop where
  | stream (a b : Op) : opStream a = opStream b → IssuedBefore tr a b → HB tr a b
  | host (a b : Op) : isHostOp a = true → IssuedBefore tr a b → HB tr a b
  | syncBarrier (a : Op) (s i : Nat) :
      opStream a = some s → IssuedBefore tr a (Op.sync s i) → HB tr a (Op.sync s i)
  | trans (a b c : Op) : HB tr a b → HB tr b c → HB tr a c

/-! ### Contents of the ping-pong activation buffers `Y[0]/Y[1]` -/

/-- Contents of one activation buffer, as a flat map from element index to
value (the numeric type is abstracted to `Int`; only zero versus nonzero
matters for the claims below). -/
def Buf : Type := Nat → Int

/-- A buffer holding only zeros, the state produced by `cudaMemset(..., 0, ...)`. -/
def zeroBuf : Buf := fun _ => 0

/-- The pair `Y[0], Y[1]` (bf_one_gpu.hpp:214-219).  `infer` allocates both
with `cudaMallocManaged` and never memsets them (only `rowsY`/`rlenY` are
memset, bf_one_gpu.hpp:224-227), so the initial contents are whatever the
allocator provides; the initial pair is therefore a parameter below. -/
structure YPair : Type where
  y0 : Buf
  y1 : Buf

/-- Read `Y[i]` of the pair. -/
def getY (s : YPair) (i : Nat) : Buf := if i = 0 then s.y0 else s.y1

/-- Replace `Y[i]` of the pair. -/
def setY (s : YPair) (i : Nat) (b : Buf) : YPair :=
  if i = 0 then { s with y0 := b } else { s with y1 := b }

/-- Effect of one `_infer_BF` iteration on the `Y` pair
(bf_one_gpu.hpp:297-326): the kernel updates `Y[(cur_layer + 1) % 2]`
(a partial write over the active rows, abstracted as an arbitrary update
function `kw`), then `cudaMemset` zeroes `Y[cur_layer % 2]`; the
surrounding stream synchronizations order the two. -/
def iterY (kw : Nat → Buf → Buf) (cur : Nat) (s : YPair) : YPair :=
  let s1 := setY s ((cur + 1) % 2) (kw cur (getY s ((cur + 1) % 2)))
  setY s1 (cur % 2) zeroBuf

/-- The `Y` pair at the start of iteration `L` (equivalently, after the
first `L` iterations of the loop); `yStateBefore kw init numLayers` is the
state at the `identify` launch. -/
def yStateBefore (kw : Nat → Buf → Buf) (init : YPair) : Nat → YPair
  | 0 => init
  | L + 1 => iterY kw L (yStateBefore kw init L)

/-! ### Row-length / active-row bookkeeping across the loop -/

/-- Modelled from the spec: the `bf_inference` kernel lives in
`SNIG/bf/kernel.hpp`, which is not part of the sources here; only its
launch (bf_one_gpu.hpp:297-311) is.  Following §4.4 of the specification
("Output: next-stage activations for active rows and this stage's
row-length array") and the ping-pong reuse of the two row-length arrays
(§3, "ActiveRowSet ... recomputed every layer transition; overwritten in
place across a ping-pong pair"), the kernel, for each row `rid` of the
active list and no other row, consumes (resets to 0) `rid`'s entry of the
current row-length array `rlenY[cur % 2]` and stores the nonnegative count
of `rid`'s fresh output nonzeros into `rlenY[(cur + 1) % 2]`.
`newCount rid` is that count. -/
def kernelRlenEffect (newCount : Nat → Nat) (active : List Nat) (rIn rOut : Nat → Int) :
    (Nat → Int) × (Nat → Int) :=
  (fun i => if i ∈ active then 0 else rIn i,
   fun i => if i ∈ active then (newCount i : Int) else rOut i)

/-- The row bookkeeping carried across iterations: `rIn` is
`rlenY[cur % 2]` (the current row lengths), `rOut` is
`rlenY[(cur + 1) % 2]`, and `active` is the active-row list
`rowsY[cur % 2][0..nerowsY)`. -/
structure RState : Type where
  rIn : Nat → Int
  rOut : Nat → Int
  active : List Nat

/-- One `_infer_BF` iteration of the row bookkeeping
(bf_one_gpu.hpp:297-320): the kernel updates the row-length arrays for the
active rows, then (after `cudaStreamSynchronize(stream[1])`) the host scan
`_non_empty_rows` recomputes the active list from `rlenY[(cur + 1) % 2]`;
the ping-pong roles swap for the next iteration. -/
def stepR (numInputs : Nat) (newCount : Nat → Nat → Nat) (cur : Nat) (s : RState) : RState :=
  let p := kernelRlenEffect (newCount cur) s.active s.rIn s.rOut
  { rIn := p.2, rOut := p.1, active := nonEmptyRows numInputs p.2 }

/-- The row bookkeeping state at the start of iteration `L`. -/
def rstate (numInputs : Nat) (newCount : Nat → Nat → Nat) (init : RState) : Nat → RState
  | 0 => init
  | L + 1 => stepR numInputs newCount L (rstate numInputs newCount init L)

/-! ## Theorems -/

/-- Soundness of the divisor search: a returned value is the first candidate
at or past the start that divides `n` with a fitting tile. -/
theorem find_max_divisor_sound (n budget : Nat) :
    ∀ fuel m k, find_max_divisor n budget m fuel = some k →
      m ≤ k ∧ n % k = 0 ∧ n / k ≤ budget ∧
        ∀ j, m ≤ j → j < k → ¬(n % j = 0 ∧ n / j ≤ budget) := by
  intro fuel
  induction fuel with
  | zero =>
    intro m k h
    simp [find_max_divisor] at h
  | succ f ih =>
    intro m k h
    simp only [find_max_divisor] at h
    split at h
    · rename_i hc
      injection h with h
      subst h
      exact ⟨Nat.le_refl m, hc.1, hc.2, fun j h1 h2 => by omega⟩
    · rename_i hc
      obtain ⟨h1, h2, h3, h4⟩ := ih (m + 1) k h
      refine ⟨by omega, h2, h3, ?_⟩
      intro j hj1 hj2
      rcases Nat.eq_or_lt_of_le hj1 with rfl | hlt
      · exact hc
      · exact h4 j hlt hj2

/-- Completeness of the divisor search: if some candidate within the fuel
satisfies the exit condition, the loop exits with a value. -/
theorem find_max_divisor_complete (n budget : Nat) :
    ∀ fuel m j, m ≤ j → j < m + fuel → n % j = 0 → n / j ≤ budget →
      ∃ k, find_max_divisor n budget m fuel = some k := by
  intro fuel
  induction fuel with
  | zero =>
    intro m j h1 h2 _ _
    omega
  | succ f ih =>
    intro m j h1 h2 h3 h4
    simp only [find_max_divisor]
    split
    · exact ⟨m, rfl⟩
    · rename_i hc
      have hmj : m ≠ j := by
        rintro rfl
        exact hc ⟨h3, h4⟩
      exact ih (m + 1) j (by omega) (by omega) h3 h4

/-- Claim C1: for `neurons_per_layer ≥ 1` and on-chip budget
`capacity / sizeof(T) ≥ 1`, the tiling computation returns
`COL_BLK = neurons_per_layer` when it fits the budget, and otherwise the
largest divisor of `neurons_per_layer` that fits, with
`N_SLAB = neurons_per_layer / COL_BLK`; it fails exactly when no divisor
fits the budget (which, under these hypotheses, never happens). -/
theorem C1_tiling_correct (n budget : Nat) (hn : 1 ≤ n) (hb : 1 ≤ budget) :
    ∃ cb ns, tiling n budget = some (cb, ns) ∧ ns = n / cb ∧
      cb ∣ n ∧ cb ≤ budget ∧ (∀ d, d ∣ n → d ≤ budget → d ≤ cb) ∧
      (n ≤ budget → cb = n) ∧
      (tiling n budget = none ↔ ¬∃ d, d ∣ n ∧ d ≤ budget) := by
  by_cases hle : n ≤ budget
  · refine ⟨n, n / n, by simp [tiling, hle], rfl, Nat.dvd_refl n, hle,
      fun d hd _ => Nat.le_of_dvd (by omega) hd, fun _ => rfl, ?_⟩
    constructor
    · intro h
      rw [tiling, if_pos hle] at h
      exact absurd h (by simp)
    · intro h
      exact absurd ⟨1, Nat.one_dvd n, hb⟩ h
  · have hbn : budget < n := Nat.lt_of_not_le hle
    have hn2 : 2 ≤ n := by omega
    obtain ⟨k, hk⟩ := find_max_divisor_complete n budget (n - 1) 2 n hn2 (by omega)
      (Nat.mod_self n) (by rw [Nat.div_self (by omega : 0 < n)]; exact hb)
    obtain ⟨hk2, hkmod, hkdiv, hkmin⟩ := find_max_divisor_sound n budget (n - 1) 2 k hk
    have hkdvd : k ∣ n := Nat.dvd_of_mod_eq_zero hkmod
    have hnkdvd : n / k ∣ n := Nat.div_dvd_of_dvd hkdvd
    have htile : tiling n budget = some (n / k, n / (n / k)) := by
      rw [tiling, if_neg hle, hk]
    refine ⟨n / k, n / (n / k), htile, rfl, hnkdvd, hkdiv, ?_, fun h => absurd h hle, ?_⟩
    · intro d hd hdb
      by_contra hlt
      push_neg at hlt
      have hd0 : 0 < d := Nat.pos_of_dvd_of_pos hd (by omega)
      have hddvd : n / d ∣ n := Nat.div_dvd_of_dvd hd
      have hdpos : 0 < n / d := Nat.div_pos (Nat.le_of_dvd (by omega) hd) hd0
      have h1 : n / d * d = n := Nat.div_mul_cancel hd
      have h2 : n / k * k = n := Nat.div_mul_cancel hkdvd
      have hmlt : n / d < k := by
        by_contra hge
        push_neg at hge
        have c1 : k * (n / k) ≤ n / d * (n / k) := mul_le_mul_right' hge (n / k)
        have c2 : n / d * (n / k) < n / d * d := mul_lt_mul_of_pos_left hlt hdpos
        have c3 : k * (n / k) = n := by rw [Nat.mul_comm]; exact h2
        omega
      rcases Nat.lt_or_ge (n / d) 2 with hsm | hsm
      · have hd1 : n / d = 1 := by omega
        have : d = n := by
          have := h1
          rw [hd1, Nat.one_mul] at this
          exact this
        omega
      · exact hkmin (n / d) hsm hmlt
          ⟨Nat.mod_eq_zero_of_dvd hddvd, by rw [Nat.div_div_self hd (by omega)]; exact hdb⟩
    · constructor
      · intro h
        rw [htile] at h
        exact absurd h (by simp)
      · intro h
        exact absurd ⟨1, Nat.one_dvd n, hb⟩ h

/-- Witness for C1 at the concrete input `n = 6`, `budget = 4`. -/
theorem C1_witness :
    1 ≤ 6 ∧ 1 ≤ 4 ∧
      (∃ cb ns, tiling 6 4 = some (cb, ns) ∧ ns = 6 / cb ∧
        cb ∣ 6 ∧ cb ≤ 4 ∧ (∀ d, d ∣ 6 → d ≤ 4 → d ≤ cb) ∧
        (6 ≤ 4 → cb = 6) ∧
        (tiling 6 4 = none ↔ ¬∃ d, d ∣ 6 ∧ d ≤ 4)) :=
  ⟨by decide, by decide, C1_tiling_correct 6 4 (by decide) (by decide)⟩

/-- Claim C2 (counterexample): on an accelerator with 49152 bytes of shared
memory per block and `T = double`, the converter (which hard-codes
`sizeof(float)`) and the engine derive different `(COL_BLK, N_SLAB)`
pairs for 8192 neurons per layer: the engine gets `(4096, 2)`, the
converter `(8192, 1)`. -/
theorem C2_counterexample :
    engineTiling 8192 49152 sizeofDouble ≠ converterTiling 8192 49152 := by
  decide

/-- Claim C2 (amended): the converter's and the engine's
`(COL_BLK, N_SLAB)` pairs agree on every accelerator exactly as far as
`sizeof(T) = sizeof(float)`, i.e. for `T = float`; for `T = double` the
two derivations can differ on the same accelerator (see the
counterexample). -/
theorem C2_float_agreement (n shmem : Nat) :
    engineTiling n shmem sizeofFloat = converterTiling n shmem := rfl

/-- Claim C10: for `sizeof(T)` either `sizeof(float)` or `sizeof(double)`,
`sizeof(int) * _pp_wlen = _pp_wsize`, hence the `int`-pointer stride
`k * _pp_wlen` used by the prefetch lands on byte offset `k * _pp_wsize`,
exactly the start of the `k`-th `_pp_wsize`-byte block, and for
`k < num_layers` that block lies inside the `_pp_wsize * num_layers`
bytes that were allocated and zeroed. -/
theorem C10_pinned_stride (sizeofT n nslab maxNnz numLayers k : Nat)
    (hT : sizeofT = sizeofFloat ∨ sizeofT = sizeofDouble) (hk : k < numLayers) :
    sizeofInt * pp_wlen sizeofT n nslab maxNnz = pp_wsize sizeofT n nslab maxNnz ∧
    pinnedLayerByteOffset sizeofT n nslab maxNnz k = k * pp_wsize sizeofT n nslab maxNnz ∧
    pinnedLayerByteOffset sizeofT n nslab maxNnz k + pp_wsize sizeofT n nslab maxNnz ≤
      pp_wsize sizeofT n nslab maxNnz * numLayers := by
  have h1 : sizeofInt * pp_wlen sizeofT n nslab maxNnz = pp_wsize sizeofT n nslab maxNnz := by
    rcases hT with rfl | rfl <;>
      · simp only [pp_wlen, pp_wsize, sizeofInt, sizeofFloat, sizeofDouble]
        ring_nf
  have h2 : pinnedLayerByteOffset sizeofT n nslab maxNnz k =
      k * pp_wsize sizeofT n nslab maxNnz := by
    rw [pinnedLayerByteOffset, Nat.mul_left_comm, h1]
  refine ⟨h1, h2, ?_⟩
  rw [h2]
  have h3 : (k + 1) * pp_wsize sizeofT n nslab maxNnz ≤
      numLayers * pp_wsize sizeofT n nslab maxNnz :=
    mul_le_mul_right' (by omega) _
  rw [Nat.add_mul, Nat.one_mul] at h3
  rw [Nat.mul_comm (pp_wsize sizeofT n nslab maxNnz) numLayers]
  exact h3

/-- Witness for C10 at `sizeof(T) = sizeof(double)`, `n = 16`, `nslab = 2`,
`maxNnz = 5`, `num_layers = 3`, `k = 1`. -/
theorem C10_witness :
    (sizeofDouble = sizeofFloat ∨ sizeofDouble = sizeofDouble) ∧ 1 < 3 ∧
      (sizeofInt * pp_wlen sizeofDouble 16 2 5 = pp_wsize sizeofDouble 16 2 5 ∧
       pinnedLayerByteOffset sizeofDouble 16 2 5 1 = 1 * pp_wsize sizeofDouble 16 2 5 ∧
       pinnedLayerByteOffset sizeofDouble 16 2 5 1 + pp_wsize sizeofDouble 16 2 5 ≤
         pp_wsize sizeofDouble 16 2 5 * 3) :=
  ⟨Or.inr rfl, by decide,
    C10_pinned_stride sizeofDouble 16 2 5 3 1 (Or.inr rfl) (by decide)⟩

/-- Membership in the scan output: exactly the indices below the bound with
positive row length. -/
theorem nonEmptyRowsAux_mem (rlen : Nat → Int) :
    ∀ N i, i ∈ nonEmptyRowsAux rlen N ↔ i < N ∧ 0 < rlen i := by
  intro N
  induction N with
  | zero =>
    intro i
    simp [nonEmptyRowsAux]
  | succ M ih =>
    intro i
    simp only [nonEmptyRowsAux, List.mem_append]
    constructor
    · rintro (h | h)
      · have := (ih i).mp h
        exact ⟨by omega, this.2⟩
      · split at h
        · rename_i hc
          simp only [List.mem_singleton] at h
          subst h
          exact ⟨by omega, hc⟩
        · simp at h
    · rintro ⟨h1, h2⟩
      rcases Nat.lt_or_ge i M with hlt | hge
      · exact Or.inl ((ih i).mpr ⟨hlt, h2⟩)
      · have : i = M := by omega
        subst this
        rw [if_pos h2]
        exact Or.inr (List.mem_singleton.mpr rfl)

/-- The scan output equals the order-preserving filter of `0, ..., N - 1`. -/
theorem nonEmptyRows_eq_filter (numInputs : Nat) (rlen : Nat → Int) :
    nonEmptyRows numInputs rlen =
      (List.range numInputs).filter (fun i => decide (0 < rlen i)) := by
  rw [nonEmptyRows]
  induction numInputs with
  | zero =>
    simp [nonEmptyRowsAux]
  | succ M ih =>
    rw [List.range_succ, List.filter_append]
    simp only [nonEmptyRowsAux]
    rw [ih]
    congr 1
    by_cases h : 0 < rlen M <;> simp [h]

/-- The scan output is strictly increasing. -/
theorem nonEmptyRows_sorted (numInputs : Nat) (rlen : Nat → Int) :
    List.Sorted (· < ·) (nonEmptyRows numInputs rlen) := by
  rw [nonEmptyRows_eq_filter]
  exact List.Pairwise.filter _ (List.pairwise_lt_range numInputs)

/-- The scan output has no duplicate row index. -/
theorem nonEmptyRows_nodup (numInputs : Nat) (rlen : Nat → Int) :
    (nonEmptyRows numInputs rlen).Nodup := by
  rw [nonEmptyRows_eq_filter]
  exact (List.nodup_range numInputs).filter _

/-- Claim C5: after `_non_empty_rows(num_inputs, rlenY, rowsY, nnz)`, the
count `nnz` equals the number of indices `i < num_inputs` with
`rlenY[i] > 0`, and `rowsY[0..nnz)` is exactly the strictly increasing
sequence of those indices. -/
theorem C5_non_empty_rows (numInputs : Nat) (rlen : Nat → Int) :
    (nonEmptyRows numInputs rlen).length =
      (Finset.filter (fun i => 0 < rlen i) (Finset.range numInputs)).card ∧
    (∀ i, i ∈ nonEmptyRows numInputs rlen ↔ i < numInputs ∧ 0 < rlen i) ∧
    List.Sorted (· < ·) (nonEmptyRows numInputs rlen) := by
  refine ⟨?_, fun i => nonEmptyRowsAux_mem rlen numInputs i,
    nonEmptyRows_sorted numInputs rlen⟩
  rw [nonEmptyRows_eq_filter]
  rfl

/-- Invariant of the row bookkeeping: the active list is the scan of the
current row lengths, the other ping-pong slot is all zeros over the batch,
and the current row lengths are nonnegative over the batch. -/
theorem rstate_invariant (numInputs : Nat) (newCount : Nat → Nat → Nat) (init : RState)
    (hact : init.active = nonEmptyRows numInputs init.rIn)
    (hout : ∀ i, i < numInputs → init.rOut i = 0)
    (hin : ∀ i, i < numInputs → 0 ≤ init.rIn i) :
    ∀ L, (rstate numInputs newCount init L).active =
           nonEmptyRows numInputs (rstate numInputs newCount init L).rIn ∧
         (∀ i, i < numInputs → (rstate numInputs newCount init L).rOut i = 0) ∧
         (∀ i, i < numInputs → 0 ≤ (rstate numInputs newCount init L).rIn i) := by
  intro L
  induction L with
  | zero => exact ⟨hact, hout, hin⟩
  | succ M ih =>
    obtain ⟨h1, h2, h3⟩ := ih
    refine ⟨rfl, ?_, ?_⟩
    · intro i hi
      simp only [rstate, stepR, kernelRlenEffect]
      split
      · rfl
      · rename_i hmem
        have hnot : ¬(i < numInputs ∧ 0 < (rstate numInputs newCount init M).rIn i) := by
          rw [← nonEmptyRowsAux_mem, ← nonEmptyRows, ← h1]
          exact hmem
        have := h3 i hi
        omega
    · intro i hi
      simp only [rstate, stepR, kernelRlenEffect]
      split
      · exact Int.natCast_nonneg _
      · rw [h2 i hi]

/-- Claim C4: the active-row count after layer `L + 1` is at most the
active-row count after layer `L` (the set of rows with nonzero length
never grows across layers), given the initial state `_infer_BF` is called
with: the active list is the scan of the input row lengths, those lengths
are nonnegative counts, and the other ping-pong slot was memset to zero. -/
theorem C4_active_rows_shrink (numInputs : Nat) (newCount : Nat → Nat → Nat) (init : RState)
    (hact : init.active = nonEmptyRows numInputs init.rIn)
    (hout : ∀ i, i < numInputs → init.rOut i = 0)
    (hin : ∀ i, i < numInputs → 0 ≤ init.rIn i) (L : Nat) :
    ((rstate numInputs newCount init (L + 1)).active).length ≤
      ((rstate numInputs newCount init L).active).length := by
  obtain ⟨h1, h2, h3⟩ := rstate_invariant numInputs newCount init hact hout hin L
  have hsub : (rstate numInputs newCount init (L + 1)).active ⊆
      (rstate numInputs newCount init L).active := by
    intro x hx
    simp only [rstate, stepR, kernelRlenEffect] at hx
    rw [nonEmptyRows, nonEmptyRowsAux_mem] at hx
    obtain ⟨hxn, hxpos⟩ := hx
    by_cases hmem : x ∈ (rstate numInputs newCount init L).active
    · exact hmem
    · rw [if_neg hmem, h2 x hxn] at hxpos
      exact absurd hxpos (lt_irrefl 0)
  have hnodup : ((rstate numInputs newCount init (L + 1)).active).Nodup := by
    simp only [rstate, stepR]
    exact nonEmptyRows_nodup _ _
  exact (hnodup.subperm hsub).length_le

/-- Witness for C4 at `num_inputs = 2`, constant kernel counts, input row
lengths all 1, and layer transition `L = 0`. -/
theorem C4_witness :
    ((⟨fun _ => 1, fun _ => 0, [0, 1]⟩ : RState).active =
      nonEmptyRows 2 (RState.rIn ⟨fun _ => 1, fun _ => 0, [0, 1]⟩)) ∧
    (∀ i, i < 2 → (RState.rOut (⟨fun _ => 1, fun _ => 0, [0, 1]⟩ : RState)) i = 0) ∧
    (∀ i, i < 2 → 0 ≤ (RState.rIn (⟨fun _ => 1, fun _ => 0, [0, 1]⟩ : RState)) i) ∧
    ((rstate 2 (fun _ _ => 1) ⟨fun _ => 1, fun _ => 0, [0, 1]⟩ (0 + 1)).active).length ≤
      ((rstate 2 (fun _ _ => 1) ⟨fun _ => 1, fun _ => 0, [0, 1]⟩ 0).active).length :=
  ⟨by decide, fun i _ => rfl, fun i _ => (by decide : (0 : Int) ≤ 1),
    C4_active_rows_shrink 2 (fun _ _ => 1) ⟨fun _ => 1, fun _ => 0, [0, 1]⟩
      (by decide) (fun i _ => rfl) (fun i _ => (by decide : (0 : Int) ≤ 1)) 0⟩

/-- Writing slot `i` of the `Y` pair and reading slot `i` back yields the
written buffer. -/
theorem getY_setY_same (s : YPair) (i : Nat) (b : Buf) : getY (setY s i b) i = b := by
  by_cases h : i = 0 <;> simp [getY, setY, h]

/-- Claim C3 (code evaluated at the failing input `num_layers = 1`): the
final `identify` launch always receives `Y[0]` (bf_one_gpu.hpp:330), but
layer 0 writes its activations into `Y[(0 + 1) % 2] = Y[1]`, and the
end-of-iteration memset has zeroed `Y[0]`; so with one layer the
classification reduction runs on an all-zero buffer, not on the buffer
written by layer `num_layers - 1`. -/
theorem C3_identify_reads_wrong_buffer :
    identifyYBuf ≠ kernelYoutBuf 0 ∧
    getY (yStateBefore (fun _ _ => fun _ => 1) ⟨zeroBuf, zeroBuf⟩ 1) identifyYBuf = zeroBuf ∧
    getY (yStateBefore (fun _ _ => fun _ => 1) ⟨zeroBuf, zeroBuf⟩ 1) (kernelYoutBuf 0) ≠ zeroBuf := by
  refine ⟨by decide, rfl, ?_⟩
  intro h
  have h0 := congrFun h 0
  simp [yStateBefore, iterY, getY, setY, kernelYoutBuf, zeroBuf] at h0

/-- Claim C8 (counterexample): at layer 0's kernel launch the output buffer
`Y[1]` holds whatever `cudaMallocManaged` provided — `infer` memsets
`rowsY`/`rlenY` but never `Y[0]`/`Y[1]` (bf_one_gpu.hpp:218-227) — so with
nonzero allocator-provided contents it is not all zeros. -/
theorem C8_counterexample :
    getY (yStateBefore (fun _ b => b) ⟨zeroBuf, fun _ => 1⟩ 0) (kernelYoutBuf 0) ≠ zeroBuf := by
  intro h
  have h0 := congrFun h 0
  simp [yStateBefore, getY, kernelYoutBuf, zeroBuf] at h0

/-- Claim C8 (amended): for every layer `L ≥ 1` (and whatever the kernel
writes and the initial allocation holds), at the launch of layer `L`'s
kernel its output buffer `Y[(L + 1) % 2]` is all zeros: it is exactly the
buffer the previous iteration's `cudaMemset` zeroed.  Only layer 0 relies
on the allocator instead of an explicit memset. -/
theorem C8_output_buffer_zeroed (kw : Nat → Buf → Buf) (init : YPair) (numLayers L : Nat)
    (h1 : 1 ≤ L) (hL : L < numLayers) :
    getY (yStateBefore kw init L) (kernelYoutBuf L) = zeroBuf := by
  obtain ⟨M, rfl⟩ : ∃ M, L = M + 1 := ⟨L - 1, by omega⟩
  have hidx : kernelYoutBuf (M + 1) = M % 2 := by
    unfold kernelYoutBuf
    omega
  rw [hidx]
  exact getY_setY_same _ _ _

/-- Witness for the amended C8 at `num_layers = 2`, `L = 1`. -/
theorem C8_witness :
    1 ≤ 1 ∧ 1 < 2 ∧
      getY (yStateBefore (fun _ b => b) ⟨zeroBuf, zeroBuf⟩ 1) (kernelYoutBuf 1) = zeroBuf :=
  ⟨by decide, by decide,
    C8_output_buffer_zeroed (fun _ b => b) ⟨zeroBuf, zeroBuf⟩ 2 1 (by decide) (by decide)⟩

/-- If the trace splits into five zones with `a` somewhere in the second
and `b` somewhere in the fourth, then `a` is issued before `b`. -/
theorem issuedBefore_zones (tr A m1 B m2 C : List Op) (a b : Op)
    (htr : tr = A ++ m1 ++ B ++ m2 ++ C) (ha : a ∈ m1) (hb : b ∈ m2) :
    IssuedBefore tr a b := by
  subst htr
  obtain ⟨s, t, rfl⟩ := List.append_of_mem ha
  obtain ⟨u, v, rfl⟩ := List.append_of_mem hb
  exact ⟨A ++ s, t ++ B ++ u, v ++ C, by simp⟩

/-- Seven-zone version witnessing three operations in issue order. -/
theorem ordered3_zones (tr A m1 B m2 C m3 D : List Op) (a b c : Op)
    (htr : tr = A ++ m1 ++ B ++ m2 ++ C ++ m3 ++ D)
    (ha : a ∈ m1) (hb : b ∈ m2) (hc : c ∈ m3) :
    ∃ l1 l2 l3 l4, tr = l1 ++ a :: (l2 ++ b :: (l3 ++ c :: l4)) := by
  subst htr
  obtain ⟨s, t, rfl⟩ := List.append_of_mem ha
  obtain ⟨u, v, rfl⟩ := List.append_of_mem hb
  obtain ⟨w, x, rfl⟩ := List.append_of_mem hc
  exact ⟨A ++ s, t ++ B ++ u, v ++ C ++ w, x ++ D, by simp⟩

/-- `0, ..., n - 1` split at one interior point `L`. -/
theorem range_decomp1 (n L : Nat) (hL : L < n) :
    List.range n = List.range' 0 L ++ L :: List.range' (L + 1) (n - (L + 1)) := by
  have h1 := List.range'_append 0 L (n - L) 1
  simp only [Nat.one_mul, Nat.zero_add] at h1
  have h2 : n - L + L = n := by omega
  rw [h2] at h1
  have h3 : n - L = (n - (L + 1)) + 1 := by omega
  rw [h3, List.range'_succ] at h1
  rw [List.range_eq_range']
  exact h1.symm

/-- `0, ..., n - 1` split at two interior points `L1 < L2`. -/
theorem range_decomp2 (n L1 L2 : Nat) (h1 : L1 < L2) (h2 : L2 < n) :
    List.range n = (List.range' 0 L1 ++ L1 :: List.range' (L1 + 1) (L2 - (L1 + 1))) ++
      L2 :: List.range' (L2 + 1) (n - (L2 + 1)) := by
  rw [range_decomp1 n L2 h2]
  have h3 : List.range' 0 L2 = List.range L2 := (List.range_eq_range' L2).symm
  rw [h3, range_decomp1 L2 L1 h1]

/-- The trace around one iteration `L`. -/
theorem inferTrace_split1 (n L : Nat) (hL : L < n) :
    inferTrace n = (List.range' 0 L).flatMap (iterOps n) ++ iterOps n L ++
      ((List.range' (L + 1) (n - (L + 1))).flatMap (iterOps n) ++
        [Op.identify, Op.devSync]) := by
  rw [inferTrace, range_decomp1 n L hL]
  simp [List.flatMap_append, List.flatMap_cons, List.append_assoc]

/-- The trace around two iterations `L1 < L2`. -/
theorem inferTrace_split2 (n L1 L2 : Nat) (h1 : L1 < L2) (h2 : L2 < n) :
    inferTrace n = (List.range' 0 L1).flatMap (iterOps n) ++ iterOps n L1 ++
      (List.range' (L1 + 1) (L2 - (L1 + 1))).flatMap (iterOps n) ++ iterOps n L2 ++
      ((List.range' (L2 + 1) (n - (L2 + 1))).flatMap (iterOps n) ++
        [Op.identify, Op.devSync]) := by
  rw [inferTrace, range_decomp2 n L1 L2 h1 h2]
  simp [List.flatMap_append, List.flatMap_cons, List.append_assoc]

/-- In a non-final iteration the prefetch is issued before the
transfer-stream synchronize of the same iteration. -/
theorem ib_copy_sync0 (n L : Nat) (h : L + 1 < n) :
    IssuedBefore (inferTrace n) (Op.copyW (L + 1)) (Op.sync 0 L) := by
  refine issuedBefore_zones (inferTrace n)
    ((List.range' 0 L).flatMap (iterOps n)) [Op.copyW (L + 1)]
    [Op.kernel L, Op.sync 1 L, Op.scan L, Op.memsetY L] [Op.sync 0 L]
    ((List.range' (L + 1) (n - (L + 1))).flatMap (iterOps n) ++
      [Op.identify, Op.devSync])
    _ _ ?_ (by simp) (by simp)
  rw [inferTrace_split1 n L (by omega), iterOps, if_pos (by omega : L ≠ n - 1)]
  simp [List.append_assoc]

/-- The transfer-stream synchronize of iteration `L1` is issued before the
kernel launch of any later iteration `L2`. -/
theorem ib_sync0_kernel (n L1 L2 : Nat) (h1 : L1 < L2) (h2 : L2 < n) :
    IssuedBefore (inferTrace n) (Op.sync 0 L1) (Op.kernel L2) := by
  refine issuedBefore_zones (inferTrace n)
    ((List.range' 0 L1).flatMap (iterOps n)) (iterOps n L1)
    ((List.range' (L1 + 1) (L2 - (L1 + 1))).flatMap (iterOps n)) (iterOps n L2)
    ((List.range' (L2 + 1) (n - (L2 + 1))).flatMap (iterOps n) ++
      [Op.identify, Op.devSync])
    _ _ (inferTrace_split2 n L1 L2 h1 h2) ?_ ?_
  · rw [iterOps]
    exact List.mem_append_right _ (by simp)
  · rw [iterOps]
    exact List.mem_append_right _ (by simp)

/-- The compute-stream synchronize of iteration `L1` is issued before the
prefetch of any later non-final iteration `L2`. -/
theorem ib_sync1_copy (n L1 L2 : Nat) (h1 : L1 < L2) (h2 : L2 + 1 < n) :
    IssuedBefore (inferTrace n) (Op.sync 1 L1) (Op.copyW (L2 + 1)) := by
  refine issuedBefore_zones (inferTrace n)
    ((List.range' 0 L1).flatMap (iterOps n)) (iterOps n L1)
    ((List.range' (L1 + 1) (L2 - (L1 + 1))).flatMap (iterOps n)) (iterOps n L2)
    ((List.range' (L2 + 1) (n - (L2 + 1))).flatMap (iterOps n) ++
      [Op.identify, Op.devSync])
    _ _ (inferTrace_split2 n L1 L2 h1 (by omega)) ?_ ?_
  · rw [iterOps]
    exact List.mem_append_right _ (by simp)
  · rw [iterOps, if_pos (by omega : L2 ≠ n - 1)]
    simp

/-- The kernel launch of iteration `L` is issued before the compute-stream
synchronize of the same iteration. -/
theorem ib_kernel_sync1 (n L : Nat) (hL : L < n) :
    IssuedBefore (inferTrace n) (Op.kernel L) (Op.sync 1 L) := by
  refine issuedBefore_zones (inferTrace n)
    ((List.range' 0 L).flatMap (iterOps n) ++
      (if L ≠ n - 1 then [Op.copyW (L + 1)] else []))
    [Op.kernel L] [] [Op.sync 1 L]
    ([Op.scan L, Op.memsetY L, Op.sync 0 L] ++
      ((List.range' (L + 1) (n - (L + 1))).flatMap (iterOps n) ++
        [Op.identify, Op.devSync]))
    _ _ ?_ (by simp) (by simp)
  rw [inferTrace_split1 n L hL, iterOps]
  simp [List.append_assoc]

/-- The compute-stream synchronize of iteration `L` is issued before the
host row scan of the same iteration. -/
theorem ib_sync1_scan (n L : Nat) (hL : L < n) :
    IssuedBefore (inferTrace n) (Op.sync 1 L) (Op.scan L) := by
  refine issuedBefore_zones (inferTrace n)
    ((List.range' 0 L).flatMap (iterOps n) ++
      ((if L ≠ n - 1 then [Op.copyW (L + 1)] else []) ++ [Op.kernel L]))
    [Op.sync 1 L] [] [Op.scan L]
    ([Op.memsetY L, Op.sync 0 L] ++
      ((List.range' (L + 1) (n - (L + 1))).flatMap (iterOps n) ++
        [Op.identify, Op.devSync]))
    _ _ ?_ (by simp) (by simp)
  rw [inferTrace_split1 n L hL, iterOps]
  simp [List.append_assoc]

/-- A prefetch for layer `l` appears in iteration `M` exactly when `M` is
not the final iteration and `l = M + 1`. -/
theorem copyW_mem_iterOps_iff (n M l : Nat) :
    Op.copyW l ∈ iterOps n M ↔ (M ≠ n - 1 ∧ l = M + 1) := by
  rw [iterOps]
  constructor
  · intro h
    rcases List.mem_append.mp h with h | h
    · split at h
      · rename_i hc
        simp only [List.mem_singleton, Op.copyW.injEq] at h
        exact ⟨hc, h⟩
      · simp at h
    · simp at h
  · rintro ⟨h1, rfl⟩
    rw [if_pos h1]
    exact List.mem_append_left _ (by simp)

/-- Claim C7: a host-to-device weight copy for layer `L + 1` is issued in
the trace exactly when `L < num_layers - 1`; in particular with a single
layer no prefetch is ever issued. -/
theorem C7_prefetch_guard (n L : Nat) :
    (Op.copyW (L + 1) ∈ inferTrace n ↔ L < n - 1) ∧
    (∀ l, Op.copyW l ∉ inferTrace 1) := by
  constructor
  · rw [inferTrace, List.mem_append, List.mem_flatMap]
    constructor
    · rintro (⟨M, hM, hmem⟩ | h)
      · rw [List.mem_range] at hM
        obtain ⟨h1, h2⟩ := (copyW_mem_iterOps_iff n M (L + 1)).mp hmem
        omega
      · simp at h
    · intro h
      exact Or.inl ⟨L, List.mem_range.mpr (by omega),
        (copyW_mem_iterOps_iff n L (L + 1)).mpr ⟨by omega, rfl⟩⟩
  · intro l h
    rw [inferTrace, List.mem_append, List.mem_flatMap] at h
    rcases h with ⟨M, hM, hmem⟩ | h
    · rw [List.mem_range] at hM
      obtain ⟨h1, h2⟩ := (copyW_mem_iterOps_iff 1 M l).mp hmem
      omega
    · simp at h

/-- Claim C9: in every iteration the host issues the kernel launch, then
`cudaStreamSynchronize` of the compute stream, then the row scan, so the
kernel's execution happens-before the scan; and the scan reads exactly the
row-length slot the kernel wrote. -/
theorem C9_sync_before_scan (n L : Nat) (hL : L < n) :
    (∃ l1 l2 l3 l4, inferTrace n =
        l1 ++ Op.kernel L :: (l2 ++ Op.sync 1 L :: (l3 ++ Op.scan L :: l4))) ∧
    HB (inferTrace n) (Op.kernel L) (Op.scan L) ∧
    scanRlenBuf L = kernelRlenOutBuf L := by
  refine ⟨?_, ?_, rfl⟩
  · refine ordered3_zones (inferTrace n)
      ((List.range' 0 L).flatMap (iterOps n) ++
        (if L ≠ n - 1 then [Op.copyW (L + 1)] else []))
      [Op.kernel L] [] [Op.sync 1 L] [] [Op.scan L]
      ([Op.memsetY L, Op.sync 0 L] ++
        ((List.range' (L + 1) (n - (L + 1))).flatMap (iterOps n) ++
          [Op.identify, Op.devSync]))
      _ _ _ ?_ (by simp) (by simp) (by simp)
    rw [inferTrace_split1 n L hL, iterOps]
    simp [List.append_assoc]
  · exact HB.trans _ _ _
      (HB.syncBarrier (Op.kernel L) 1 L rfl (ib_kernel_sync1 n L hL))
      (HB.host (Op.sync 1 L) (Op.scan L) rfl (ib_sync1_scan n L hL))

/-- Witness for C9 at `num_layers = 1`, `L = 0`. -/
theorem C9_witness :
    0 < 1 ∧
      ((∃ l1 l2 l3 l4, inferTrace 1 =
          l1 ++ Op.kernel 0 :: (l2 ++ Op.sync 1 0 :: (l3 ++ Op.scan 0 :: l4))) ∧
       HB (inferTrace 1) (Op.kernel 0) (Op.scan 0) ∧
       scanRlenBuf 0 = kernelRlenOutBuf 0) :=
  ⟨by decide, C9_sync_before_scan 1 0 (by decide)⟩

/-- Claim C6: the prefetch issued in iteration `L` targets the weight
buffer not read by layer `L`'s kernel and exactly the one layer `L + 1`'s
kernel reads; the transfer stream is synchronized between the copy and
layer `L + 1`'s launch; the copy happens-before the dependent kernel; and
the copy is ordered (never concurrent) with every kernel that reads the
buffer it overwrites. -/
theorem C6_prefetch_isolation (n L : Nat) (h : L + 1 < n) :
    prefetchDstBuf L ≠ kernelWBuf L ∧
    prefetchDstBuf L = kernelWBuf (L + 1) ∧
    (∃ l1 l2 l3 l4, inferTrace n =
        l1 ++ Op.copyW (L + 1) :: (l2 ++ Op.sync 0 L :: (l3 ++ Op.kernel (L + 1) :: l4))) ∧
    HB (inferTrace n) (Op.copyW (L + 1)) (Op.kernel (L + 1)) ∧
    (∀ M, M < n → kernelWBuf M = prefetchDstBuf L →
      HB (inferTrace n) (Op.kernel M) (Op.copyW (L + 1)) ∨
        HB (inferTrace n) (Op.copyW (L + 1)) (Op.kernel M)) := by
  have hne : L ≠ n - 1 := by omega
  have hIter : iterOps n L = [Op.copyW (L + 1)] ++
      ([Op.kernel L, Op.sync 1 L, Op.scan L, Op.memsetY L] ++ [Op.sync 0 L]) := by
    rw [iterOps, if_pos hne]
    rfl
  refine ⟨?_, rfl, ?_, ?_, ?_⟩
  · unfold prefetchDstBuf kernelWBuf
    omega
  · refine ordered3_zones (inferTrace n)
      ((List.range' 0 L).flatMap (iterOps n)) [Op.copyW (L + 1)]
      [Op.kernel L, Op.sync 1 L, Op.scan L, Op.memsetY L] [Op.sync 0 L]
      ((List.range' (L + 1) (L + 1 - (L + 1))).flatMap (iterOps n)) (iterOps n (L + 1))
      ((List.range' (L + 1 + 1) (n - (L + 1 + 1))).flatMap (iterOps n) ++
        [Op.identify, Op.devSync])
      _ _ _ ?_ (by simp) (by simp) ?_
    · rw [inferTrace_split2 n L (L + 1) (by omega) h, hIter]
      simp [List.append_assoc]
    · rw [iterOps]
      exact List.mem_append_right _ (by simp)
  · exact HB.trans _ _ _
      (HB.syncBarrier (Op.copyW (L + 1)) 0 L rfl (ib_copy_sync0 n L h))
      (HB.host (Op.sync 0 L) (Op.kernel (L + 1)) rfl
        (ib_sync0_kernel n L (L + 1) (by omega) h))
  · intro M hM hbuf
    unfold kernelWBuf prefetchDstBuf at hbuf
    rcases Nat.lt_or_ge M (L + 1) with hlt | hge
    · have hMlt : M < L := by omega
      exact Or.inl (HB.trans _ _ _
        (HB.syncBarrier (Op.kernel M) 1 M rfl (ib_kernel_sync1 n M (by omega)))
        (HB.host (Op.sync 1 M) (Op.copyW (L + 1)) rfl (ib_sync1_copy n M L hMlt h)))
    · exact Or.inr (HB.trans _ _ _
        (HB.syncBarrier (Op.copyW (L + 1)) 0 L rfl (ib_copy_sync0 n L h))
        (HB.host (Op.sync 0 L) (Op.kernel M) rfl (ib_sync0_kernel n L M (by omega) hM)))

/-- Witness for C6 at `num_layers = 2`, `L = 0`. -/
theorem C6_witness :
    0 + 1 < 2 ∧
      (prefetchDstBuf 0 ≠ kernelWBuf 0 ∧
       prefetchDstBuf 0 = kernelWBuf (0 + 1) ∧
       (∃ l1 l2 l3 l4, inferTrace 2 =
          l1 ++ Op.copyW (0 + 1) :: (l2 ++ Op.sync 0 0 :: (l3 ++ Op.kernel (0 + 1) :: l4))) ∧
       HB (inferTrace 2) (Op.copyW (0 + 1)) (Op.kernel (0 + 1)) ∧
       (∀ M, M < 2 → kernelWBuf M = prefetchDstBuf 0 →
         HB (inferTrace 2) (Op.kernel M) (Op.copyW (0 + 1)) ∨
           HB (inferTrace 2) (Op.copyW (0 + 1)) (Op.kernel M))) :=
  ⟨by decide, C6_prefetch_isolation 2 0 (by decide)⟩

end snig
